import Mathlib

/-!
Shallow embedding of the emoji data-table scanner and catalog builder of
`src/main.rs` (the `dmoji` program).

Strings are modelled as `List Char`; decoded Unicode scalar values as `Nat`
(Rust `char` values).  Fallible operations return `Option`, mirroring the
source's use of `Option` and the `?` operator.  The three regexes built in
`Scanner::new` are simple anchored patterns over disjoint character classes,
so they are embedded as explicit, executable string scanners whose matching
semantics coincide with the leftmost / lazy capture semantics of the source
patterns (justified next to each definition).
-/

namespace Dmoji

/-- Rust `char::is_whitespace` / regex `\s`: the Unicode `White_Space` set. -/
def isWs (c : Char) : Bool :=
  decide ((9 ≤ c.toNat ∧ c.toNat ≤ 13) ∨ c.toNat = 32 ∨ c.toNat = 0x85 ∨
    c.toNat = 0xA0 ∨ c.toNat = 0x1680 ∨ (0x2000 ≤ c.toNat ∧ c.toNat ≤ 0x200A) ∨
    c.toNat = 0x2028 ∨ c.toNat = 0x2029 ∨ c.toNat = 0x202F ∨ c.toNat = 0x205F ∨
    c.toNat = 0x3000)

/-- The regex character class `[A-F0-9]`. -/
def isHexUpper (c : Char) : Bool :=
  decide ((48 ≤ c.toNat ∧ c.toNat ≤ 57) ∨ (65 ≤ c.toNat ∧ c.toNat ≤ 70))

/-- The value of one hexadecimal digit, as accepted by
`u32::from_str_radix(_, 16)` (which also admits lowercase). -/
def hexDigit? (c : Char) : Option Nat :=
  if 48 ≤ c.toNat ∧ c.toNat ≤ 57 then some (c.toNat - 48)
  else if 65 ≤ c.toNat ∧ c.toNat ≤ 70 then some (c.toNat - 55)
  else if 97 ≤ c.toNat ∧ c.toNat ≤ 102 then some (c.toNat - 87)
  else none

/-- Validity test of `std::char::from_u32`: not a surrogate, at most U+10FFFF. -/
def isScalar (n : Nat) : Bool :=
  decide (n < 0xD800 ∨ (0xE000 ≤ n ∧ n < 0x110000))

/-- Digit-by-digit accumulation of `u32::from_str_radix(s, 16)`: each step is
checked against the `u32` range, an overflowing or non-digit step yields
`none` (Rust returns `Err`). -/
def fromDigitsAux : List Char → Nat → Option Nat
  | [], acc => some acc
  | c :: t, acc =>
    match hexDigit? c with
    | none => none
    | some d =>
      if 16 * acc + d < 4294967296 then fromDigitsAux t (16 * acc + d) else none

/-- `u32::from_str_radix(s, 16)`: an optional leading `+` sign followed by at
least one hexadecimal digit; anything else is an error (`none`). -/
def fromStrRadix16 (s : List Char) : Option Nat :=
  match s with
  | [] => none
  | c :: t =>
    if c = '+' then
      match t with
      | [] => none
      | _ => fromDigitsAux t 0
    else fromDigitsAux (c :: t) 0

/-- `fn unichar(s: &str) -> Option<char>`:
`Some(std::char::from_u32(u32::from_str_radix(s, 16).ok()?)?)`. -/
def unichar (s : List Char) : Option Nat :=
  match fromStrRadix16 s with
  | none => none
  | some n => if isScalar n then some n else none

/-- Split a list at the first occurrence of `c` (the occurrence removed);
`none` when `c` does not occur. -/
def splitFirst (c : Char) : List Char → Option (List Char × List Char)
  | [] => none
  | x :: t =>
    if x = c then some ([], t)
    else (splitFirst c t).map (fun p => (x :: p.1, p.2))

/-- Captures of `line_re = ^(.*?);(.*?);(.*?)#(.*?)$` on one line (no newline
present).  With lazy groups over the unrestricted class `.` the leftmost match
is: group 1 up to the first `;`, group 2 up to the next `;`, group 3 up to the
first `#` after that, group 4 the rest of the line; the pattern matches iff
the line contains two `;` and then a `#`. -/
def lineCaptures (line : List Char) :
    Option (List Char × List Char × List Char × List Char) :=
  match splitFirst ';' line with
  | none => none
  | some (f1, r1) =>
    match splitFirst ';' r1 with
    | none => none
    | some (f2, r2) =>
      match splitFirst '#' r2 with
      | none => none
      | some (f3, f4) => some (f1, f2, f3, f4)

/-- Rust `str::trim`: remove leading and trailing `White_Space` characters. -/
def trimList (l : List Char) : List Char :=
  ((l.dropWhile isWs).reverse.dropWhile isWs).reverse

/-- Captures of `range_re = ^([A-F0-9]+)\.\.([A-F0-9]+)$`.  Hex digits and `.`
are disjoint, so the only candidate split is: maximal hex prefix, then `..`,
then a non-empty all-hex remainder. -/
def rangeCapture (s : List Char) : Option (List Char × List Char) :=
  let h1 := s.takeWhile isHexUpper
  if h1 = [] then none
  else
    match s.drop h1.length with
    | d1 :: d2 :: h2 =>
      if d1 = '.' ∧ d2 = '.' ∧ h2 ≠ [] ∧ h2.all isHexUpper then some (h1, h2)
      else none
    | _ => none

/-- Tail of `lit_re = ^[A-F0-9]+(\s+[A-F0-9])*$` after the leading hex run:
state `st = true` means we are inside the `\s+` of an iteration and still owe
its single hex digit (note the source pattern really allows only ONE hex digit
per further run — there is no `+` on the second `[A-F0-9]`). -/
def litTail : List Char → Bool → Bool
  | [], st => !st
  | c :: t, st =>
    if st then
      if isWs c then litTail t true else isHexUpper c && litTail t false
    else
      isWs c && litTail t true

/-- Whole-string match of `lit_re = ^[A-F0-9]+(\s+[A-F0-9])*$`. -/
def litMatch (s : List Char) : Bool :=
  let run := s.takeWhile isHexUpper
  !run.isEmpty && litTail (s.drop run.length) false

/-- Rust `str::split_whitespace`: the maximal non-whitespace runs, in order
(accumulator holds the current run, reversed). -/
def splitWsAux : List Char → List Char → List (List Char)
  | [], acc => if acc = [] then [] else [acc.reverse]
  | c :: t, acc =>
    if isWs c then
      if acc = [] then splitWsAux t [] else acc.reverse :: splitWsAux t []
    else splitWsAux t (c :: acc)

/-- Rust `str::split_whitespace`. -/
def splitWs (s : List Char) : List (List Char) := splitWsAux s []

/-- `.map(unichar).collect::<Option<String>>()`: decode every token, failing
as a whole if any token fails. -/
def mapOpt : List (List Char) → Option (List Nat)
  | [] => some []
  | t :: ts =>
    match unichar t with
    | none => none
    | some c =>
      match mapOpt ts with
      | none => none
      | some cs => some (c :: cs)

/-- `enum Sequence { Range(RangeInclusive<char>), Literal(String) }`,
with `char` as `Nat` scalar values and `String` as `List Nat`. -/
inductive Sequence where
  | Range : Nat → Nat → Sequence
  | Literal : List Nat → Sequence
deriving DecidableEq

/-- `struct Emoji { sequence: Sequence, description: &str }`. -/
structure Emoji where
  sequence : Sequence
  description : List Char
deriving DecidableEq

/-- `Scanner::scan_seq`: try the range pattern first (a failed conversion
returns `none` for the whole spec via `?`), then the literal pattern. -/
def scan_seq (s : List Char) : Option Sequence :=
  match rangeCapture s with
  | some (h1, h2) =>
    match unichar h1 with
    | none => none
    | some low =>
      match unichar h2 with
      | none => none
      | some high => some (Sequence.Range low high)
  | none =>
    if litMatch s then
      match mapOpt (splitWs s) with
      | none => none
      | some cs => some (Sequence.Literal cs)
    else none

/-- `Scanner::scan_line`: match `line_re`, resolve the trimmed first field as
the sequence spec, take the trimmed third field as the description. -/
def scan_line (line : List Char) : Option Emoji :=
  match lineCaptures line with
  | none => none
  | some (f1, _, f3, _) =>
    match scan_seq (trimList f1) with
    | none => none
    | some sq => some ⟨sq, trimList f3⟩

/-- Drop one trailing carriage return (`str::lines` strips `\r\n`). -/
def stripCR (l : List Char) : List Char :=
  if l.getLast? = some '\r' then l.dropLast else l

/-- Segments of the text between `\n` characters (always non-empty; the final
segment is the unterminated tail). -/
def splitNl : List Char → List (List Char)
  | [] => [[]]
  | c :: t =>
    if c = '\n' then [] :: splitNl t
    else
      match splitNl t with
      | [] => [[c]]
      | l :: ls => (c :: l) :: ls

/-- Rust `str::lines`: split at `\n`, strip a `\r` preceding each `\n`, and
drop the final segment when it is empty (optional final terminator). -/
def linesOf (text : List Char) : List (List Char) :=
  match (splitNl text).reverse with
  | [] => []
  | last :: revInit =>
    (revInit.reverse.map stripCR) ++ (if last = [] then [] else [last])

/-- `Scanner::emoji`: `text.lines().flat_map(|line| self.scan_line(line))`. -/
def emoji (text : List Char) : List Emoji :=
  (linesOf text).filterMap scan_line

/-- Decimal digit character, as printed by `format!("{}", idx)`. -/
def digitChar (d : Nat) : Char :=
  match d with
  | 0 => '0' | 1 => '1' | 2 => '2' | 3 => '3' | 4 => '4'
  | 5 => '5' | 6 => '6' | 7 => '7' | 8 => '8' | 9 => '9'
  | _ => '*'

/-- Accumulating decimal printer (`fuel` bounds the number of digits). -/
def natDigitsAux : Nat → Nat → List Char → List Char
  | 0, _, acc => acc
  | fuel + 1, n, acc =>
    if n < 10 then digitChar (n % 10) :: acc
    else natDigitsAux fuel (n / 10) (digitChar (n % 10) :: acc)

/-- Decimal representation of a `Nat`, as printed by `format!("{}", n)`. -/
def natDigits (n : Nat) : List Char := natDigitsAux (n + 1) n []

/-- Numeric value of a decimal digit string (left inverse of `natDigits`). -/
def digitsVal (l : List Char) : Nat :=
  l.foldl (fun a c => a * 10 + (c.toNat - 48)) 0

/-- The ascending scalar values of `low..=high` as iterated by
`RangeInclusive<char>` (the `char` successor skips the surrogate gap). -/
def scalarsBetween (low high : Nat) : List Nat :=
  (List.range' low (high + 1 - low)).filter isScalar

/-- The `(key, value)` pairs a record contributes to the catalog, in insertion
order: the `Sequence::Literal` arm inserts `description -> seq` once, the
`Sequence::Range` arm inserts `"{description}-{idx}" -> ch.to_string()` for
each enumerated member. -/
def recordEntries (e : Emoji) : List (List Char × List Nat) :=
  match e.sequence with
  | Sequence.Literal cs => [(e.description, cs)]
  | Sequence.Range low high =>
    (scalarsBetween low high).enum.map
      (fun p => (e.description ++ '-' :: natDigits p.1, [p.2]))

/-- The entries of a record list, in file-then-line-then-range order. -/
def entriesOf : List Emoji → List (List Char × List Nat)
  | [] => []
  | r :: t => recordEntries r ++ entriesOf t

/-- `HashMap::insert` observed through an association list with unique keys:
replace the entry with the given key in place, or append a fresh entry. -/
def mapInsert {K V : Type} [DecidableEq K] :
    List (K × V) → K → V → List (K × V)
  | [], k, v => [(k, v)]
  | p :: t, k, v =>
    if p.1 = k then (k, v) :: t else p :: mapInsert t k v

/-- Fold a list of entries into a map by successive insertion (the `for`
loop of `main`). -/
def insertAll {K V : Type} [DecidableEq K]
    (m : List (K × V)) (es : List (K × V)) : List (K × V) :=
  es.foldl (fun m p => mapInsert m p.1 p.2) m

/-- `HashMap::get`. -/
def mapLookup {K V : Type} [DecidableEq K] : List (K × V) → K → Option V
  | [], _ => none
  | p :: t, k => if p.1 = k then some p.2 else mapLookup t k

/-- The catalog built by `main`'s loop from a record sequence. -/
def buildCatalog (rs : List Emoji) : List (List Char × List Nat) :=
  insertAll [] (entriesOf rs)

/-- The full two-file pipeline of `main`:
`scanner.emoji(&pri_emoji).chain(scanner.emoji(&zwj_emoji))` folded into the
catalog. -/
def catalogOfFiles (pri zwj : List Char) : List (List Char × List Nat) :=
  buildCatalog (emoji pri ++ emoji zwj)

/-- The value of the last entry of `es` carrying key `k`, if any. -/
def lastVal {K V : Type} [DecidableEq K] : List (K × V) → K → Option V
  | [], _ => none
  | p :: t, k =>
    match lastVal t k with
    | some v => some v
    | none => if p.1 = k then some p.2 else none

/-- The exact numeric value of a hex digit string continued from `acc` (no
width limit), used to state what `from_str_radix` computes. -/
def hexValFrom (acc : Nat) (s : List Char) : Nat :=
  s.foldl (fun a c => 16 * a + (hexDigit? c).getD 0) acc

/-- The exact numeric value of a hex digit string. -/
def hexValNat (s : List Char) : Nat := hexValFrom 0 s

/-! ### Association-list map lemmas -/

theorem mapInsert_keys {K V : Type} [DecidableEq K] (m : List (K × V)) (k : K) (v : V) :
    (mapInsert m k v).map Prod.fst =
      if k ∈ m.map Prod.fst then m.map Prod.fst else m.map Prod.fst ++ [k] := by
  induction m with
  | nil => simp [mapInsert]
  | cons p t ih =>
    simp only [mapInsert]
    by_cases hp : p.1 = k
    · rw [if_pos hp]
      simp [hp]
    · rw [if_neg hp]
      simp only [List.map_cons, ih, List.mem_cons]
      by_cases hm : k ∈ t.map Prod.fst
      · simp [hm]
      · have hk1 : ¬k = p.1 := fun h => hp h.symm
        simp [hm, hk1]

theorem mapInsert_lookup {K V : Type} [DecidableEq K]
    (m : List (K × V)) (k : K) (v : V) (k' : K) :
    mapLookup (mapInsert m k v) k' = if k' = k then some v else mapLookup m k' := by
  induction m with
  | nil =>
    simp only [mapInsert, mapLookup]
    by_cases h : k' = k
    · simp [h]
    · rw [if_neg (fun hh => h hh.symm), if_neg h]
  | cons p t ih =>
    simp only [mapInsert]
    by_cases hp : p.1 = k
    · rw [if_pos hp]
      simp only [mapLookup]
      by_cases h : k' = k
      · simp [h]
      · rw [if_neg (fun hh => h hh.symm), if_neg h, if_neg (fun hh => h (hp ▸ hh).symm)]
    · rw [if_neg hp]
      simp only [mapLookup, ih]
      by_cases h : k' = k
      · subst h
        rw [if_neg (fun hh => hp (hh : p.1 = k')), if_pos rfl, if_pos rfl]
      · rw [if_neg h, if_neg h]

theorem mapInsert_fresh {K V : Type} [DecidableEq K]
    (m : List (K × V)) (k : K) (v : V) (h : k ∉ m.map Prod.fst) :
    mapInsert m k v = m ++ [(k, v)] := by
  induction m with
  | nil => rfl
  | cons p t ih =>
    simp only [List.map_cons, List.mem_cons] at h
    push_neg at h
    simp only [mapInsert]
    rw [if_neg (fun hh => h.1 hh.symm), ih h.2]
    rfl

theorem mapInsert_nodup {K V : Type} [DecidableEq K]
    (m : List (K × V)) (k : K) (v : V) (h : (m.map Prod.fst).Nodup) :
    ((mapInsert m k v).map Prod.fst).Nodup := by
  rw [mapInsert_keys]
  by_cases hk : k ∈ m.map Prod.fst
  · rwa [if_pos hk]
  · rw [if_neg hk]
    simp [List.nodup_append, h, List.disjoint_singleton, hk]

theorem mapLookup_eq_none {K V : Type} [DecidableEq K]
    (m : List (K × V)) (k : K) (h : k ∉ m.map Prod.fst) : mapLookup m k = none := by
  induction m with
  | nil => rfl
  | cons p t ih =>
    simp only [List.map_cons, List.mem_cons] at h
    push_neg at h
    simp only [mapLookup]
    rw [if_neg (fun hh => h.1 hh.symm), ih h.2]

theorem insertAll_nodup {K V : Type} [DecidableEq K]
    (m : List (K × V)) (es : List (K × V)) (h : (m.map Prod.fst).Nodup) :
    ((insertAll m es).map Prod.fst).Nodup := by
  induction es generalizing m with
  | nil => exact h
  | cons e t ih => exact ih _ (mapInsert_nodup _ _ _ h)

theorem insertAll_keys_mono {K V : Type} [DecidableEq K]
    (m : List (K × V)) (es : List (K × V)) (k : K) (h : k ∈ m.map Prod.fst) :
    k ∈ (insertAll m es).map Prod.fst := by
  induction es generalizing m with
  | nil => exact h
  | cons e t ih =>
    refine ih _ ?_
    rw [mapInsert_keys]
    by_cases he : e.1 ∈ m.map Prod.fst
    · rwa [if_pos he]
    · rw [if_neg he]
      exact List.mem_append_left _ h

theorem insertAll_mem_keys {K V : Type} [DecidableEq K]
    (es : List (K × V)) (p : K × V) :
    ∀ m : List (K × V), p ∈ es → p.1 ∈ (insertAll m es).map Prod.fst := by
  induction es with
  | nil => intro m h; cases h
  | cons e t ih =>
    intro m h
    rw [insertAll, List.foldl_cons]
    show p.1 ∈ (insertAll (mapInsert m e.1 e.2) t).map Prod.fst
    rcases List.mem_cons.mp h with h | h
    · subst h
      refine insertAll_keys_mono _ _ _ ?_
      rw [mapInsert_keys]
      by_cases he : p.1 ∈ m.map Prod.fst
      · rwa [if_pos he]
      · rw [if_neg he]
        exact List.mem_append_right _ (List.mem_singleton.mpr rfl)
    · exact ih _ h

theorem insertAll_keys_sub {K V : Type} [DecidableEq K]
    (m : List (K × V)) (es : List (K × V)) (h : ∀ p ∈ es, p.1 ∈ m.map Prod.fst) :
    (insertAll m es).map Prod.fst = m.map Prod.fst := by
  induction es generalizing m with
  | nil => rfl
  | cons e t ih =>
    have hk : (mapInsert m e.1 e.2).map Prod.fst = m.map Prod.fst := by
      rw [mapInsert_keys, if_pos (h e (List.mem_cons_self _ _))]
    rw [insertAll, List.foldl_cons]
    show (insertAll (mapInsert m e.1 e.2) t).map Prod.fst = m.map Prod.fst
    rw [ih _ (fun p hp => hk ▸ h p (List.mem_cons_of_mem _ hp)), hk]

theorem insertAll_lookup {K V : Type} [DecidableEq K]
    (m : List (K × V)) (es : List (K × V)) (k : K) :
    mapLookup (insertAll m es) k =
      match lastVal es k with
      | some v => some v
      | none => mapLookup m k := by
  induction es generalizing m with
  | nil => rfl
  | cons e t ih =>
    rw [insertAll, List.foldl_cons]
    show mapLookup (insertAll (mapInsert m e.1 e.2) t) k = _
    rw [ih]
    simp only [lastVal]
    cases lastVal t k with
    | some v => rfl
    | none =>
      simp only [mapInsert_lookup]
      by_cases h : e.1 = k
      · rw [if_pos (h.symm : k = e.1), if_pos h]
      · rw [if_neg (fun hh => h (hh.symm : e.1 = k)), if_neg h]

theorem alist_ext {K V : Type} [DecidableEq K] (m1 : List (K × V)) :
    ∀ m2 : List (K × V), (m1.map Prod.fst).Nodup →
      m1.map Prod.fst = m2.map Prod.fst →
      (∀ k, mapLookup m1 k = mapLookup m2 k) → m1 = m2 := by
  induction m1 with
  | nil =>
    intro m2 _ hk _
    cases m2 with
    | nil => rfl
    | cons q t => simp at hk
  | cons p t1 ih =>
    intro m2 hnd hk hl
    cases m2 with
    | nil => simp at hk
    | cons q t2 =>
      simp only [List.map_cons, List.cons.injEq] at hk
      obtain ⟨hk1, hk2⟩ := hk
      have hv : p.2 = q.2 := by
        have h := hl p.1
        simp only [mapLookup, if_pos rfl] at h
        rw [if_pos hk1.symm] at h
        exact Option.some.inj h
      have hnd' := hnd
      rw [List.map_cons, List.nodup_cons] at hnd'
      have htl : ∀ k, mapLookup t1 k = mapLookup t2 k := by
        intro k
        by_cases hkp : p.1 = k
        · rw [mapLookup_eq_none t1 k (hkp ▸ hnd'.1), mapLookup_eq_none t2 k ?_]
          rw [← hk2]
          exact hkp ▸ hnd'.1
        · have h := hl k
          simp only [mapLookup] at h
          rwa [if_neg hkp, if_neg (fun hh => hkp (hk1 ▸ hh))] at h
      have := ih t2 hnd'.2 hk2 htl
      rw [this]
      have : p = q := Prod.ext hk1 hv
      rw [this]

theorem insertAll_fresh_append {K V : Type} [DecidableEq K]
    (es : List (K × V)) : ∀ m : List (K × V), (∀ p ∈ es, p.1 ∉ m.map Prod.fst) →
      (es.map Prod.fst).Nodup → insertAll m es = m ++ es := by
  induction es with
  | nil => intro m _ _; simp [insertAll]
  | cons e t ih =>
    intro m hf hnd
    rw [insertAll, List.foldl_cons]
    show insertAll (mapInsert m e.1 e.2) t = m ++ e :: t
    rw [mapInsert_fresh m e.1 e.2 (hf e (List.mem_cons_self _ _))]
    rw [List.map_cons, List.nodup_cons] at hnd
    rw [ih (m ++ [(e.1, e.2)]) ?_ hnd.2]
    · simp
    · intro p hp
      simp only [List.map_append, List.mem_append]
      rintro (h | h)
      · exact hf p (List.mem_cons_of_mem _ hp) h
      · simp only [List.map_cons, List.map_nil, List.mem_singleton] at h
        exact hnd.1 (h ▸ List.mem_map_of_mem Prod.fst hp)

/-! ### Claim theorems -/

theorem entriesOf_append (a b : List Emoji) :
    entriesOf (a ++ b) = entriesOf a ++ entriesOf b := by
  induction a with
  | nil => rfl
  | cons r t ih => simp [entriesOf, ih]

theorem insertAll_append {K V : Type} [DecidableEq K]
    (m : List (K × V)) (a b : List (K × V)) :
    insertAll m (a ++ b) = insertAll (insertAll m a) b := by
  unfold insertAll
  rw [List.foldl_append]

theorem insertAll_self_absorb {K V : Type} [DecidableEq K] (es : List (K × V)) :
    insertAll (insertAll [] es) es = insertAll [] es := by
  refine alist_ext _ _ (insertAll_nodup _ _ (insertAll_nodup _ _ (by simp))) ?_ ?_
  · exact insertAll_keys_sub _ _ (fun p hp => insertAll_mem_keys es p [] hp)
  · intro k
    rw [insertAll_lookup, insertAll_lookup]
    cases lastVal es k with
    | some v => rfl
    | none => rfl

/-- C1: the claim says every whitespace-separated multi-run uppercase-hex spec
resolves to the `Literal` concatenation of its decoded scalar values; but the
source pattern `^[A-F0-9]+(\s+[A-F0-9])*$` allows only a SINGLE hex digit in
each run after the first, so the multi-codepoint spec
`1F469 200D 2764 FE0F 200D 1F468` (and with it every line of the ZWJ data
file the program loads) resolves to nothing, while a spec whose later runs
are single digits does resolve. -/
theorem c1_zwj_literal_rejected :
    scan_seq ("1F469 200D 2764 FE0F 200D 1F468".toList) = none ∧
    scan_line (("1F469 200D 2764 FE0F 200D 1F468;RGI_Emoji_ZWJ_Sequence;" ++
      "couple with heart # E2.0").toList) = none ∧
    scan_seq ("1F600 A B".toList) = some (Sequence.Literal [0x1F600, 0xA, 0xB]) :=
  ⟨by decide, by decide, by decide⟩

/-- C2 counterexample: the claimed well-formed line
`1F600;fully-qualified # GRINNING FACE` has only one `;`, but
`line_re = ^(.*?);(.*?);(.*?)#(.*?)$` requires two, so scanning it yields no
record at all. -/
theorem c2_single_semicolon_no_record :
    scan_line ("1F600;fully-qualified # GRINNING FACE".toList) = none := by
  decide

/-- C2 (amended): for a data line in the format the scanner actually accepts —
`<spec>;<field2>;<description> # <comment>`, description being the third
semicolon-separated field, before the `#` — scanning yields exactly one record
with the trimmed description `GRINNING FACE` and literal sequence U+1F600. -/
theorem c2_data_line_record :
    scan_line ("1F600;fully-qualified;GRINNING FACE # E1.0 grinning face".toList) =
      some ⟨Sequence.Literal [0x1F600], "GRINNING FACE".toList⟩ := by
  decide

theorem splitFirst_append (c : Char) (a : List Char) (r : List Char) (h : c ∉ a) :
    splitFirst c (a ++ c :: r) = some (a, r) := by
  induction a with
  | nil => simp [splitFirst]
  | cons x t ih =>
    simp only [List.mem_cons] at h
    push_neg at h
    simp only [List.cons_append, splitFirst, List.append_eq]
    rw [if_neg (fun hh => h.1 hh.symm), ih h.2]
    rfl

/-- C3 counterexample: on the line `1F600;Basic_Emoji;DESC # COMMENT` the
produced record's description is `DESC` — the trimmed third semicolon-separated
field, before the `#` — not the text `COMMENT` following the first `#` as the
claim states. -/
theorem c3_description_not_after_hash :
    scan_line ("1F600;Basic_Emoji;DESC # COMMENT".toList) =
      some ⟨Sequence.Literal [0x1F600], "DESC".toList⟩ ∧
    "DESC".toList ≠ "COMMENT".toList :=
  ⟨by decide, by decide⟩

/-- C3 (amended): for every line matching the grammar — decomposed as
`a ; b ; c3 # d` with the shown `;` the first two semicolons and the shown `#`
the first `#` after them — the description of the produced record is the
trimmed field `c3` between the second `;` and that `#`; the tail `d` (which
may itself contain further `#` or `;`) is discarded. -/
theorem c3_description_is_field3 (a b c3 d : List Char) (e : Emoji)
    (ha : ';' ∉ a) (hb : ';' ∉ b) (hc : '#' ∉ c3)
    (h : scan_line (a ++ (';' :: (b ++ (';' :: (c3 ++ ('#' :: d)))))) = some e) :
    e.description = trimList c3 := by
  have hcap : lineCaptures (a ++ (';' :: (b ++ (';' :: (c3 ++ ('#' :: d)))))) =
      some (a, b, c3, d) := by
    simp only [lineCaptures,
      splitFirst_append ';' a (b ++ (';' :: (c3 ++ ('#' :: d)))) ha,
      splitFirst_append ';' b (c3 ++ ('#' :: d)) hb,
      splitFirst_append '#' c3 d hc]
  simp only [scan_line, hcap] at h
  cases hs : scan_seq (trimList a) with
  | none =>
    simp only [hs] at h
    exact Option.noConfusion h
  | some sq =>
    simp only [hs] at h
    obtain rfl : (⟨sq, trimList c3⟩ : Emoji) = e := Option.some.inj h
    rfl

/-- Witness for C3 at the concrete line `1F600;fully-qualified; DESC # E1.0 # x`. -/
theorem c3_description_is_field3_witness :
    (⟨Sequence.Literal [0x1F600], "DESC".toList⟩ : Emoji).description =
      trimList (" DESC ".toList) :=
  c3_description_is_field3 ("1F600".toList) ("fully-qualified".toList)
    (" DESC ".toList) (" E1.0 # x".toList)
    ⟨Sequence.Literal [0x1F600], "DESC".toList⟩
    (by decide) (by decide) (by decide) (by decide)

theorem takeWhile_append_not (p : Char → Bool) (h1 : List Char) (x : Char)
    (r : List Char) (hall : ∀ c ∈ h1, p c = true) (hx : p x = false) :
    (h1 ++ x :: r).takeWhile p = h1 := by
  induction h1 with
  | nil => simp [List.takeWhile_cons, hx]
  | cons c t ih =>
    simp only [List.cons_append, List.takeWhile_cons,
      hall c (List.mem_cons_self _ _), if_true]
    rw [ih (fun c hc => hall c (List.mem_cons_of_mem _ hc))]

theorem rangeCapture_append (h1 h2 : List Char)
    (hne1 : h1 ≠ []) (hne2 : h2 ≠ [])
    (ha1 : h1.all isHexUpper = true) (ha2 : h2.all isHexUpper = true) :
    rangeCapture (h1 ++ '.' :: '.' :: h2) = some (h1, h2) := by
  have ht : (h1 ++ '.' :: '.' :: h2).takeWhile isHexUpper = h1 :=
    takeWhile_append_not _ _ _ _ (List.all_eq_true.mp ha1) (by decide)
  simp only [rangeCapture, ht]
  rw [if_neg hne1, List.drop_left]
  simp [hne2, ha2]

/-- C4: for a trimmed spec `h1..h2` with both runs non-empty uppercase hex,
`scan_seq` returns the inclusive `Range low high` exactly when both runs
convert to valid Unicode scalar values, and `none` (the caller skips the line,
no error) when either conversion fails — value overflowing `u32`, in the
surrogate range, or above the maximum code point. -/
theorem c4_range_spec_resolution (h1 h2 : List Char)
    (hne1 : h1 ≠ []) (hne2 : h2 ≠ [])
    (ha1 : h1.all isHexUpper = true) (ha2 : h2.all isHexUpper = true) :
    scan_seq (h1 ++ '.' :: '.' :: h2) =
      match unichar h1, unichar h2 with
      | some low, some high => some (Sequence.Range low high)
      | _, _ => none := by
  simp only [scan_seq, rangeCapture_append h1 h2 hne1 hne2 ha1 ha2]
  cases unichar h1 with
  | none => rfl
  | some low =>
    cases unichar h2 with
    | none => rfl
    | some high => rfl

/-- Witness for C4: a valid range resolves to `Range`, a surrogate range
resolves to nothing. -/
theorem c4_range_spec_resolution_witness :
    scan_seq ("1F466".toList ++ '.' :: '.' :: "1F469".toList) =
      some (Sequence.Range 0x1F466 0x1F469) ∧
    scan_seq ("D800".toList ++ '.' :: '.' :: "D801".toList) = none :=
  ⟨(c4_range_spec_resolution ("1F466".toList) ("1F469".toList)
      (by decide) (by decide) (by decide) (by decide)).trans (by decide),
   (c4_range_spec_resolution ("D800".toList) ("D801".toList)
      (by decide) (by decide) (by decide) (by decide)).trans (by decide)⟩

/-- C6: keys of the final catalog are unique (for every record list), and in
the concrete two-file scenario where file A binds key `X` to U+1F642 and file
B later rebinds `X` to U+1F641, the final catalog maps `X` to file B's value. -/
theorem c6_unique_keys_last_write_wins :
    (∀ rs : List Emoji, ((buildCatalog rs).map Prod.fst).Nodup) ∧
    mapLookup (catalogOfFiles ("1F642;type;X # file A".toList)
      ("1F641;type;X # file B".toList)) ("X".toList) = some [0x1F641] := by
  refine ⟨fun rs => insertAll_nodup _ _ (by simp), ?_⟩
  decide

/-- C9: a `Range` record with valid scalar bounds but `low > high` contributes
no catalog entries (the inclusive range iterates over nothing), and inserting
its (empty) entry list leaves any catalog unchanged — no error occurs. -/
theorem c9_reversed_range_no_entries (low high : Nat) (d : List Char)
    (m : List (List Char × List Nat))
    (hlow : isScalar low = true) (hhigh : isScalar high = true) (h : high < low) :
    recordEntries ⟨Sequence.Range low high, d⟩ = [] ∧
    insertAll m (recordEntries ⟨Sequence.Range low high, d⟩) = m := by
  have h0 : high + 1 - low = 0 := by omega
  have hs : scalarsBetween low high = [] := by
    unfold scalarsBetween
    rw [h0]
    rfl
  have he : recordEntries ⟨Sequence.Range low high, d⟩ = [] := by
    simp [recordEntries, hs]
  exact ⟨he, by rw [he]; rfl⟩

theorem digitChar_val (d : Nat) (h : d < 10) : (digitChar d).toNat - 48 = d := by
  interval_cases d <;> rfl

theorem natDigitsAux_acc (fuel : Nat) : ∀ n acc,
    natDigitsAux fuel n acc = natDigitsAux fuel n [] ++ acc := by
  induction fuel with
  | zero => intro n acc; rfl
  | succ fuel ih =>
    intro n acc
    simp only [natDigitsAux]
    by_cases h : n < 10
    · rw [if_pos h, if_pos h]
      rfl
    · rw [if_neg h, if_neg h, ih (n / 10) (digitChar (n % 10) :: acc),
        ih (n / 10) [digitChar (n % 10)], List.append_assoc]
      rfl

theorem digitsVal_append_singleton (l : List Char) (c : Char) :
    digitsVal (l ++ [c]) = digitsVal l * 10 + (c.toNat - 48) := by
  unfold digitsVal
  rw [List.foldl_append]
  rfl

theorem digitsVal_natDigitsAux (fuel : Nat) : ∀ n, n < 10 ^ fuel →
    digitsVal (natDigitsAux fuel n []) = n := by
  induction fuel with
  | zero =>
    intro n hn
    interval_cases n
    rfl
  | succ fuel ih =>
    intro n hn
    simp only [natDigitsAux]
    by_cases h : n < 10
    · rw [if_pos h]
      show digitsVal [digitChar (n % 10)] = n
      have h1 : digitsVal [digitChar (n % 10)] = (digitChar (n % 10)).toNat - 48 := by
        unfold digitsVal
        simp
      rw [h1, digitChar_val (n % 10) (Nat.mod_lt _ (by norm_num)), Nat.mod_eq_of_lt h]
    · rw [if_neg h, natDigitsAux_acc, digitsVal_append_singleton,
        digitChar_val (n % 10) (Nat.mod_lt _ (by norm_num))]
      have hdiv : n / 10 < 10 ^ fuel := by
        rw [Nat.div_lt_iff_lt_mul (by norm_num : (0 : Nat) < 10)]
        calc n < 10 ^ (fuel + 1) := hn
        _ = 10 ^ fuel * 10 := by rw [pow_succ]
      rw [ih (n / 10) hdiv]
      omega

theorem digitsVal_natDigits (n : Nat) : digitsVal (natDigits n) = n := by
  unfold natDigits
  refine digitsVal_natDigitsAux (n + 1) n ?_
  calc n < 10 ^ n := Nat.lt_pow_self (by norm_num) n
  _ ≤ 10 ^ (n + 1) := Nat.pow_le_pow_right (by norm_num) (Nat.le_succ n)

theorem natDigits_inj {a b : Nat} (h : natDigits a = natDigits b) : a = b := by
  have ha := digitsVal_natDigits a
  rw [h, digitsVal_natDigits] at ha
  exact ha.symm

theorem mem_scalarsBetween (low high n : Nat) :
    n ∈ scalarsBetween low high ↔ (low ≤ n ∧ n ≤ high ∧ isScalar n = true) := by
  unfold scalarsBetween
  rw [List.mem_filter, List.mem_range'_1]
  constructor
  · rintro ⟨⟨h1, h2⟩, h3⟩
    exact ⟨h1, by omega, h3⟩
  · rintro ⟨h1, h2, h3⟩
    exact ⟨⟨h1, by omega⟩, h3⟩

theorem scalarsBetween_sorted (low high : Nat) :
    (scalarsBetween low high).Pairwise (· < ·) :=
  (List.pairwise_lt_range' _ _).sublist (List.filter_sublist _)

/-- C5: for `low ≤ high`, the `Range` arm of the catalog loop inserts exactly
one entry per scalar value in the inclusive range — the range enumeration is
exactly the scalar values between the bounds, in strictly ascending order —
keyed `description-index` with indices from 0 mapping to the one-character
text, and the resulting catalog is literally that enumeration (all composed
keys are distinct, so no insertion overwrites another). -/
theorem c5_range_expansion (low high : Nat) (d : List Char) (h : low ≤ high) :
    (∀ n, n ∈ scalarsBetween low high ↔ (low ≤ n ∧ n ≤ high ∧ isScalar n = true)) ∧
    (scalarsBetween low high).Pairwise (· < ·) ∧
    buildCatalog [⟨Sequence.Range low high, d⟩] =
      (scalarsBetween low high).enum.map
        (fun p => (d ++ '-' :: natDigits p.1, [p.2])) := by
  refine ⟨fun n => mem_scalarsBetween low high n, scalarsBetween_sorted low high, ?_⟩
  unfold buildCatalog
  have he : entriesOf [⟨Sequence.Range low high, d⟩] =
      (scalarsBetween low high).enum.map
        (fun p => (d ++ '-' :: natDigits p.1, [p.2])) := by
    simp [entriesOf, recordEntries]
  rw [he]
  set es := (scalarsBetween low high).enum.map
    (fun p => (d ++ '-' :: natDigits p.1, ([p.2] : List Nat))) with hes
  have hnd : (es.map Prod.fst).Nodup := by
    rw [hes, List.map_map]
    have hcomp : (Prod.fst ∘ fun p : Nat × Nat =>
        (d ++ '-' :: natDigits p.1, ([p.2] : List Nat))) =
        (fun i : Nat => d ++ '-' :: natDigits i) ∘ Prod.fst := rfl
    rw [hcomp, ← List.map_map, List.enum_map_fst]
    refine List.Nodup.map ?_ (List.nodup_range _)
    intro a b hab
    have h1 : '-' :: natDigits a = '-' :: natDigits b := List.append_cancel_left hab
    exact natDigits_inj (List.cons.inj h1).2
  rw [insertAll_fresh_append es [] (by simp) hnd]
  simp

/-- Witness for C5: the spec's own example `1F466..1F469 ; boy` expands to the
four entries `boy-0 ... boy-3` in ascending order. -/
theorem c5_range_expansion_witness :
    buildCatalog [⟨Sequence.Range 0x1F466 0x1F469, "boy".toList⟩] =
      [("boy-0".toList, [0x1F466]), ("boy-1".toList, [0x1F467]),
       ("boy-2".toList, [0x1F468]), ("boy-3".toList, [0x1F469])] :=
  ((c5_range_expansion 0x1F466 0x1F469 ("boy".toList) (by decide)).2.2).trans
    (by decide)

theorem dropWhile_append_singleton (p : Char → Bool) (xs : List Char) (a : Char)
    (h : p a = false) : (xs ++ [a]).dropWhile p = xs.dropWhile p ++ [a] := by
  induction xs with
  | nil => simp [List.dropWhile_cons, h]
  | cons x t ih =>
    simp only [List.cons_append, List.dropWhile_cons]
    by_cases hx : p x
    · rw [if_pos hx, if_pos hx, ih]
    · rw [if_neg hx, if_neg hx]
      rfl

theorem trimList_cons_head (c : Char) (l : List Char) (h : isWs c = false) :
    ∃ q, trimList (c :: l) = c :: q := by
  unfold trimList
  rw [List.dropWhile_cons, h]
  simp only [Bool.false_eq_true, if_false, List.reverse_cons]
  rw [dropWhile_append_singleton isWs l.reverse c h]
  exact ⟨(l.reverse.dropWhile isWs).reverse, by simp⟩

theorem scan_seq_head_not_hex (c : Char) (l : List Char)
    (h : isHexUpper c = false) : scan_seq (c :: l) = none := by
  have hr : rangeCapture (c :: l) = none := by
    simp [rangeCapture, List.takeWhile_cons, h]
  have hl : litMatch (c :: l) = false := by
    simp [litMatch, List.takeWhile_cons, h]
  simp [scan_seq, hr, hl]

theorem lineCaptures_f1 (line f1 f2 f3 f4 : List Char)
    (h : lineCaptures line = some (f1, f2, f3, f4)) :
    ∃ r, splitFirst ';' line = some (f1, r) := by
  unfold lineCaptures at h
  cases h1 : splitFirst ';' line with
  | none => rw [h1] at h; exact Option.noConfusion h
  | some p =>
    obtain ⟨g1, r1⟩ := p
    refine ⟨r1, ?_⟩
    simp only [h1] at h
    cases h2 : splitFirst ';' r1 with
    | none => simp only [h2] at h; exact Option.noConfusion h
    | some q =>
      obtain ⟨g2, r2⟩ := q
      simp only [h2] at h
      cases h3 : splitFirst '#' r2 with
      | none => simp only [h3] at h; exact Option.noConfusion h
      | some w =>
        obtain ⟨g3, g4⟩ := w
        simp only [h3, Option.some.injEq, Prod.mk.injEq] at h
        rw [h.1]

/-- C7: the line scanner is total with at most one record per line, and it
skips silently: every comment line starting with `#` yields no record; so do
the empty line, a line without the grammar's separators, and a line whose spec
holds the non-hexadecimal token `1F46G` — and a file of such lines builds an
empty catalog. -/
theorem c7_scanner_total_and_skips :
    (∀ t : List Char, scan_line ('#' :: t) = none) ∧
    scan_line [] = none ∧
    scan_line ("just some malformed text".toList) = none ∧
    scan_line ("1F46G;Basic_Emoji;grinning # comment".toList) = none ∧
    buildCatalog (emoji ("# comment line\n\n1F46G;a;b # c\n".toList)) = [] ∧
    (∀ line : List Char, scan_line line = none ∨ ∃ e, scan_line line = some e) := by
  refine ⟨?_, by decide, by decide, by decide, by decide, ?_⟩
  · intro t
    cases hcap : lineCaptures ('#' :: t) with
    | none => simp [scan_line, hcap]
    | some q =>
      obtain ⟨f1, f2, f3, f4⟩ := q
      obtain ⟨r, hsp⟩ := lineCaptures_f1 _ _ _ _ _ hcap
      have hf1 : ∃ p, f1 = '#' :: p := by
        simp only [splitFirst, if_neg (by decide : ¬('#' : Char) = ';')] at hsp
        cases hs2 : splitFirst ';' t with
        | none => rw [hs2] at hsp; exact Option.noConfusion hsp
        | some pr =>
          rw [hs2] at hsp
          simp only [Option.map_some', Option.some.injEq, Prod.mk.injEq] at hsp
          exact ⟨pr.1, hsp.1.symm⟩
      obtain ⟨p, rfl⟩ := hf1
      obtain ⟨q2, htr⟩ := trimList_cons_head '#' p (by decide)
      simp [scan_line, hcap, htr, scan_seq_head_not_hex '#' q2 (by decide)]
  · intro line
    cases h : scan_line line with
    | none => exact Or.inl rfl
    | some e => exact Or.inr ⟨e, rfl⟩

/-- C8: building a fresh catalog from the record sequence obtained by scanning
the same file content twice (both passes concatenated) yields the same catalog
as scanning it once: the second pass only overwrites every key with the value
it already holds. -/
theorem c8_catalog_idempotent (text : List Char) :
    buildCatalog (emoji text ++ emoji text) = buildCatalog (emoji text) := by
  unfold buildCatalog
  rw [entriesOf_append, insertAll_append]
  exact insertAll_self_absorb _

theorem hexDigit_of_upper (c : Char) (h : isHexUpper c = true) :
    hexDigit? c = some ((hexDigit? c).getD 0) := by
  unfold isHexUpper at h
  rw [decide_eq_true_eq] at h
  unfold hexDigit?
  rcases h with h | h
  · rw [if_pos h]
    rfl
  · rw [if_neg (by omega), if_pos h]
    rfl

theorem hex_not_ws (c : Char) (h : isHexUpper c = true) : isWs c = false := by
  unfold isHexUpper at h
  unfold isWs
  rw [decide_eq_true_eq] at h
  rw [decide_eq_false_iff_not]
  omega

theorem hexValFrom_ge (s : List Char) : ∀ acc, acc ≤ hexValFrom acc s := by
  induction s with
  | nil => intro acc; exact le_refl _
  | cons c t ih =>
    intro acc
    have h1 : acc ≤ 16 * acc + (hexDigit? c).getD 0 := by omega
    exact le_trans h1 (ih _)

theorem fromDigitsAux_spec (s : List Char) : ∀ acc,
    (∀ c ∈ s, isHexUpper c = true) → acc < 4294967296 →
    fromDigitsAux s acc =
      if hexValFrom acc s < 4294967296 then some (hexValFrom acc s) else none := by
  induction s with
  | nil =>
    intro acc _ hacc
    have h : hexValFrom acc [] = acc := rfl
    rw [h, if_pos hacc]
    rfl
  | cons c t ih =>
    intro acc hall hacc
    have hc := hexDigit_of_upper c (hall c (List.mem_cons_self _ _))
    obtain ⟨d, hd⟩ : ∃ d, hexDigit? c = some d := ⟨_, hc⟩
    have hgd : (hexDigit? c).getD 0 = d := by
      rw [hd]
      rfl
    have hstep : hexValFrom acc (c :: t) = hexValFrom (16 * acc + d) t := by
      rw [← hgd]
      rfl
    simp only [fromDigitsAux, hd]
    by_cases hlt : 16 * acc + d < 4294967296
    · rw [if_pos hlt, ih _ (fun x hx => hall x (List.mem_cons_of_mem _ hx)) hlt,
        hstep]
    · rw [if_neg hlt, hstep]
      have hge : 4294967296 ≤ hexValFrom (16 * acc + d) t :=
        le_trans (by omega) (hexValFrom_ge t _)
      rw [if_neg (by omega)]

theorem takeWhile_all (p : Char → Bool) (s : List Char)
    (h : ∀ c ∈ s, p c = true) : s.takeWhile p = s := by
  induction s with
  | nil => rfl
  | cons c t ih =>
    rw [List.takeWhile_cons, h c (List.mem_cons_self _ _), if_pos rfl,
      ih (fun x hx => h x (List.mem_cons_of_mem _ hx))]

theorem splitWsAux_no_ws (s : List Char) : ∀ acc, (∀ c ∈ s, isWs c = false) →
    splitWsAux s acc =
      if acc.reverse ++ s = [] then [] else [acc.reverse ++ s] := by
  induction s with
  | nil =>
    intro acc _
    simp only [splitWsAux, List.append_nil]
    by_cases h : acc = []
    · subst h
      rfl
    · rw [if_neg h, if_neg (by simpa using h)]
  | cons c t ih =>
    intro acc hall
    simp only [splitWsAux, hall c (List.mem_cons_self _ _), Bool.false_eq_true,
      if_false]
    rw [ih (c :: acc) (fun x hx => hall x (List.mem_cons_of_mem _ hx))]
    have h1 : (c :: acc).reverse ++ t = acc.reverse ++ c :: t := by simp
    rw [h1]

theorem splitWs_single (s : List Char) (hne : s ≠ [])
    (h : ∀ c ∈ s, isWs c = false) : splitWs s = [s] := by
  unfold splitWs
  rw [splitWsAux_no_ws s [] h]
  simp only [List.reverse_nil, List.nil_append]
  rw [if_neg hne]

theorem litMatch_all_hex (s : List Char) (hne : s ≠ [])
    (hall : ∀ c ∈ s, isHexUpper c = true) : litMatch s = true := by
  cases s with
  | nil => exact absurd rfl hne
  | cons c t =>
    simp only [litMatch, takeWhile_all isHexUpper (c :: t) hall, List.drop_length]
    rfl

/-- C10: hexadecimal conversion never fails abruptly.  For any non-empty run
of uppercase hex digits, `unichar` returns exactly the run's numeric value
when that value fits in `u32` and is a valid Unicode scalar value, and `none`
otherwise (no wrap-around to a different value); and when the value overflows
`u32` or is not a scalar value, a spec consisting of that run resolves to
nothing. -/
theorem c10_hex_conversion_safe (s : List Char) (hne : s ≠ [])
    (hall : s.all isHexUpper = true) :
    (unichar s =
      if hexValNat s < 4294967296 ∧ isScalar (hexValNat s) = true
      then some (hexValNat s) else none) ∧
    ((4294967296 ≤ hexValNat s ∨ isScalar (hexValNat s) = false) →
      scan_seq s = none) := by
  have hall' := List.all_eq_true.mp hall
  obtain ⟨c, t, rfl⟩ : ∃ c t, s = c :: t := by
    cases s with
    | nil => exact absurd rfl hne
    | cons c t => exact ⟨c, t, rfl⟩
  have hcp : ¬c = '+' := by
    intro hc
    have := hall' c (List.mem_cons_self _ _)
    rw [hc] at this
    exact absurd this (by decide)
  have hfr : fromStrRadix16 (c :: t) =
      if hexValNat (c :: t) < 4294967296 then some (hexValNat (c :: t)) else none := by
    simp only [fromStrRadix16]
    rw [if_neg hcp]
    exact fromDigitsAux_spec (c :: t) 0 hall' (by norm_num)
  have huni : unichar (c :: t) =
      if hexValNat (c :: t) < 4294967296 ∧ isScalar (hexValNat (c :: t)) = true
      then some (hexValNat (c :: t)) else none := by
    unfold unichar
    rw [hfr]
    by_cases h1 : hexValNat (c :: t) < 4294967296
    · rw [if_pos h1]
      show (if isScalar (hexValNat (c :: t)) = true
        then some (hexValNat (c :: t)) else none) = _
      by_cases h2 : isScalar (hexValNat (c :: t)) = true
      · rw [if_pos h2, if_pos ⟨h1, h2⟩]
      · rw [if_neg h2, if_neg (fun hh => h2 hh.2)]
    · rw [if_neg h1, if_neg (fun hh => h1 hh.1)]
  refine ⟨huni, fun hbad => ?_⟩
  have huni0 : unichar (c :: t) = none := by
    rw [huni, if_neg ?_]
    rintro ⟨h1, h2⟩
    rcases hbad with h | h
    · omega
    · rw [h2] at h
      exact Bool.noConfusion h
  have hrc : rangeCapture (c :: t) = none := by
    simp only [rangeCapture, takeWhile_all isHexUpper (c :: t) hall',
      List.drop_length]
    rw [if_neg hne]
  have hsw : splitWs (c :: t) = [c :: t] :=
    splitWs_single (c :: t) hne (fun x hx => hex_not_ws x (hall' x hx))
  simp only [scan_seq, hrc, litMatch_all_hex (c :: t) hne hall', if_true, hsw,
    mapOpt, huni0]

/-- Witness for C10 at the nine-digit run `123456789`, whose value
0x123456789 exceeds the `u32` range. -/
theorem c10_hex_conversion_safe_witness :
    unichar ("123456789".toList) = none ∧ scan_seq ("123456789".toList) = none :=
  ⟨((c10_hex_conversion_safe ("123456789".toList) (by decide) (by decide)).1).trans
      (by decide),
   (c10_hex_conversion_safe ("123456789".toList) (by decide) (by decide)).2
      (by decide)⟩

/-- Witness for C9 at the reversed bounds `U+1F469 > U+1F466`. -/
theorem c9_reversed_range_no_entries_witness :
    recordEntries ⟨Sequence.Range 0x1F469 0x1F466, "boy".toList⟩ = [] ∧
    insertAll [("x".toList, ([1] : List Nat))]
      (recordEntries ⟨Sequence.Range 0x1F469 0x1F466, "boy".toList⟩) =
      [("x".toList, [1])] :=
  ⟨(c9_reversed_range_no_entries 0x1F469 0x1F466 ("boy".toList)
      [] (by decide) (by decide) (by decide)).1,
    (c9_reversed_range_no_entries 0x1F469 0x1F466 ("boy".toList)
      [("x".toList, [1])] (by decide) (by decide) (by decide)).2⟩

end Dmoji
